import Mathlib

/-!
Shallow embedding of the pausable countdown timer of `wf-auto-tabs.js`
(class `Timer`, lines 154-208) and of the attribute-parsing layer
(class `Booster`, lines 74-138), together with proofs of the claims
about them.

The host environment (`setTimeout` / `clearTimeout` /
`requestAnimationFrame` / `Date.now`) is modelled as a small-step
system: a `World` holds the timer's fields, the current clock, the list
of pending one-shot timeouts and the list of pending animation-frame
callbacks; the environment chooses when time advances, when a due
timeout runs and when an animation frame occurs.  Observable callback
invocations (the completion callback and the progress callback) are
emitted as a trace.
-/

namespace AutoTabs

/-- A pending `requestAnimationFrame` callback belonging to the timer:
either the one-shot `() => this.tick(0)` scheduled by `resume()`, or one
link of the `animate` chain of `runProgressAnimation()`, carrying the
closure-local `start` variable (`none` until the first tick ran). -/
inductive Anim
  | zero
  | loop (firstTick : Option Int)
deriving DecidableEq, Repr

/-- The fields of the `Timer` class.  `cb` is opaque (its invocations
show up in the observation trace instead); `tick : Bool` records whether
a progress callback was supplied (`this.tick` is only ever tested for
truthiness, and invoked, by the class). -/
structure Timer where
  delay : Int
  tick : Bool
  remaining : Int
  start : Int
  timerId : Option Nat
deriving DecidableEq, Repr

/-- `constructor(callback, delay, tick)`: stores the parameters,
`remaining = delay`, `start = 0`; `timerId` is not assigned, i.e.
`undefined`. -/
def Timer.construct (delay : Int) (tick : Bool) : Timer :=
  { delay := delay, tick := tick, remaining := delay, start := 0, timerId := none }

/-- Observable callback invocations, stamped with the clock value at
which they happen: `complete t` is a run of `this.cb()`, `progress t q`
is a run of `this.tick(q)`. -/
inductive Obs
  | complete (t : Int)
  | progress (t : Int) (q : ℚ)
deriving DecidableEq, Repr

/-- The world: the timer, the current `Date.now()` value, the pending
`setTimeout` entries (id, fire time), the next fresh timeout id
(positive, as in the browser), and the pending animation-frame
callbacks in scheduling order. -/
structure World where
  timer : Timer
  now : Int
  pending : List (Nat × Int)
  nextId : Nat
  anims : List Anim
deriving DecidableEq, Repr

def World.init (t : Timer) (t0 : Int) : World :=
  { timer := t, now := t0, pending := [], nextId := 1, anims := [] }

/-- `clearTimeout(id)`: removes the matching pending timeout;
`clearTimeout(undefined)` is a no-op. -/
def clearTimeout (id? : Option Nat) (pending : List (Nat × Int)) : List (Nat × Int) :=
  match id? with
  | none => pending
  | some id => pending.filter (fun p => p.1 ≠ id)

/-- `clear() { clearTimeout(this.timerId); this.timerId = undefined; }` -/
def World.clear (w : World) : World :=
  { w with pending := clearTimeout w.timer.timerId w.pending,
           timer := { w.timer with timerId := none } }

/-- `reset() { this.clear(); this.remaining = this.delay; this.start = 0; }` -/
def World.reset (w : World) : World :=
  let w1 := w.clear
  { w1 with timer := { w1.timer with remaining := w1.timer.delay, start := 0 } }

/-- `pause()`: `if (this.start) { this.remaining -= Date.now() - this.start;
this.start = 0; this.clear(); }`.  JS truthiness of the number
`this.start` is `start ≠ 0`. -/
def World.pause (w : World) : World :=
  if w.timer.start ≠ 0 then
    let w1 := { w with timer := { w.timer with
      remaining := w.timer.remaining - (w.now - w.timer.start),
      start := 0 } }
    w1.clear
  else w

/-- `resume()`: `if (!this.timerId) { this.timerId = setTimeout(() => this.cb(),
this.remaining); if (this.tick) { this.start = Date.now();
requestAnimationFrame(() => this.tick(0)); this.runProgressAnimation(); } }`.
`setTimeout` with a negative delay fires as soon as the entry is due,
which the model captures by scheduling the (possibly past) time
`now + remaining`. -/
def World.resume (w : World) : World :=
  if w.timer.timerId = none then
    let w1 := { w with
      timer := { w.timer with timerId := some w.nextId },
      pending := w.pending ++ [(w.nextId, w.now + w.timer.remaining)],
      nextId := w.nextId + 1 }
    if w1.timer.tick then
      { w1 with timer := { w1.timer with start := w.now },
                anims := w1.anims ++ [Anim.zero, Anim.loop none] }
    else w1
  else w

/-- One animation-frame callback of the timer running at timestamp `ts`:
the one-shot zero tick reports 0 and is not rescheduled; one `animate`
step of `runProgressAnimation` sets its local `start` on the first run,
reports `min(elapsed / delay, 1) * 100` and reschedules itself while
`elapsed < delay`. -/
def stepAnim (delay : Int) (ts : Int) : Anim → Option Anim × ℚ
  | Anim.zero => (none, 0)
  | Anim.loop ft =>
    let start := ft.getD ts
    let elapsed := ts - start
    let progress := min ((elapsed : ℚ) / (delay : ℚ)) 1 * 100
    (if elapsed < delay then some (Anim.loop (some start)) else none, progress)

/-- An animation frame at the current clock: every pending callback runs
(in scheduling order) with timestamp `now`; `this.tick(progress)` is
invoked when `this.tick` is set (callbacks are only ever scheduled when
it is). -/
def World.frame (w : World) : World × List Obs :=
  let results := w.anims.map (stepAnim w.timer.delay w.now)
  ({ w with anims := results.filterMap Prod.fst },
   if w.timer.tick then results.map (fun r => Obs.progress w.now r.2) else [])

/-- The host runs a due timeout: if some pending entry's fire time has
arrived, its callback `() => this.cb()` runs (touching none of the
timer's fields) and the entry is removed. -/
def World.fire (w : World) : World × List Obs :=
  match w.pending.find? (fun p => decide (p.2 ≤ w.now)) with
  | some p => ({ w with pending := w.pending.filter (fun q => q.1 ≠ p.1) }, [Obs.complete w.now])
  | none => (w, [])

/-- Environment events: the three public timer operations, a due-timeout
run, an animation frame, and the monotone clock advancing. -/
inductive Event
  | resume
  | pause
  | reset
  | fire
  | frame
  | advance (d : Nat)
deriving DecidableEq, Repr

def step (w : World) : Event → World × List Obs
  | Event.resume => (w.resume, [])
  | Event.pause => (w.pause, [])
  | Event.reset => (w.reset, [])
  | Event.fire => w.fire
  | Event.frame => w.frame
  | Event.advance d => ({ w with now := w.now + d }, [])

def run (w : World) : List Event → World × List Obs
  | [] => (w, [])
  | e :: es => ((run (step w e).1 es).1, (step w e).2 ++ (run (step w e).1 es).2)

/-- Events that are not one of the timer's three public operations:
time passing, animation frames, and due timeouts running. -/
def passiveB : Event → Bool
  | Event.resume => false
  | Event.pause => false
  | Event.reset => false
  | Event.fire => true
  | Event.frame => true
  | Event.advance _ => true

def isCompleteObs : Obs → Bool
  | Obs.complete _ => true
  | Obs.progress _ _ => false

/-- How many times the completion callback ran in a trace. -/
def countCompletes (l : List Obs) : Nat := (l.filter isCompleteObs).length

/-- The values passed to the progress callback, in order. -/
def progressValues (l : List Obs) : List ℚ :=
  l.filterMap (fun o => match o with
    | Obs.progress _ q => some q
    | Obs.complete _ => none)

/-- `chainB v l` holds when `l` is non-decreasing and starts no lower
than `v`. -/
def chainB : ℚ → List ℚ → Bool
  | _, [] => true
  | v, q :: qs => decide (v ≤ q) && chainB q qs

/-- Membership test for the `animate` chain links among the pending
animation-frame callbacks (the one-shot zero tick does not count as a
progress loop). -/
def isLoopAnim : Anim → Bool
  | Anim.loop _ => true
  | Anim.zero => false

/-- Holds of an event list when every `pause()` in it is issued either
while the timer is not marked running, or at a time no later than the
pending scheduled fire time. -/
def safePauses : World → List Event → Bool
  | _, [] => true
  | w, e :: es =>
    (match e with
     | Event.pause =>
       (w.timer.start == 0) || w.pending.any (fun p => decide (w.now ≤ p.2))
     | _ => true) && safePauses (step w e).1 es

/-! ### The attribute-parsing layer (`Booster`)

`Booster.parse` iterates over the configured attributes; each attribute
carries a `defaultValue`, an optional `validate` predicate (the list
form of `validate` is also a membership predicate on the raw string) and
a `parse` function (all three attributes configured by the auto-tab
booster supply one; `parse(value) ?? defaultValue` falls back to the
default when `parse` returns a nullish value, modelled by `Option`). -/

structure AttrSpec (V : Type) where
  defaultValue : V
  validate : Option (String → Bool)
  parse : String → Option V

/-- `Booster.validate`: `if (!attribute.validate) return true;` then the
predicate decides, with a console log on failure. -/
def boosterValidate {V : Type} (attr : AttrSpec V) (value : String) : Bool :=
  match attr.validate with
  | none => true
  | some f => f value

/-- One iteration of the `for (const key in this.options.attributes)`
loop of `Booster.parse`, for one attribute.  `value` is
`element.getAttribute(key)` (`none` = attribute absent; the empty string
is also falsy for `if (!value)`).  Returns the entry stored in the
`DataStore` for the key (`none` means the key was never set, so a later
`get` yields `undefined`) and whether an invalid-value message was
logged. -/
def parseAttribute {V : Type} (attr : AttrSpec V) (value : Option String) :
    Option V × Bool :=
  match value with
  | none => (some attr.defaultValue, false)
  | some v =>
    if v = "" then (some attr.defaultValue, false)
    else if boosterValidate attr v then (some ((attr.parse v).getD attr.defaultValue), false)
    else (none, true)

/-- `parse.stringToBoolean: (value) => value !== "false"`. -/
def stringToBoolean (v : String) : Bool := v != "false"

/-- `validation.isBoolean: (value) => /^(true|false)$/.test(value)`. -/
def isBoolean (v : String) : Bool := v == "true" || v == "false"

/-- The `fb-tabs-pauseable` attribute configuration of the auto-tab
booster.  (`fb-tabs-progress` is configured identically; `fb-tabs-speed`
uses `validation.isNumber` and `Number`, whose JS numeric coercion is
not modelled here.) -/
def pauseableAttr : AttrSpec Bool :=
  { defaultValue := false
    validate := some isBoolean
    parse := fun v => some (stringToBoolean v) }

/-! ### Invariant predicates used by the proofs -/

/-- Invariant of every world reachable from a freshly constructed timer
with delay `d`, starting the clock at `t0`:
the delay is fixed; the clock is monotone; every pending timeout is the
one `this.timerId` refers to, and there is at most one; `remaining`
never exceeds the delay; a cleared handle means the timer is not marked
running; and while marked running, the run segment began no later than
now and the pending fire time is `start + remaining`. -/
structure Reach (d t0 : Int) (w : World) : Prop where
  delay_eq : w.timer.delay = d
  now_ge : t0 ≤ w.now
  pend_id : ∀ p ∈ w.pending, w.timer.timerId = some p.1
  pend_len : w.pending.length ≤ 1
  rem_le : w.timer.remaining ≤ d
  id_none : w.timer.timerId = none → w.timer.start = 0
  run_inv : w.timer.start ≠ 0 →
    w.timer.start ≤ w.now ∧ ∀ p ∈ w.pending, p.2 = w.timer.start + w.timer.remaining

/-- Shape of the pending list after the single `resume()` of a fresh
timer: at most the one fire scheduled (with timeout id 1) for time `x`. -/
def PendShape (x : Int) (w : World) : Prop :=
  w.pending = [] ∨ w.pending = [(1, x)]

/-- Every `animate` chain link that already ticked did so no later than
now. -/
def AnimClock (w : World) : Prop :=
  ∀ ft : Int, Anim.loop (some ft) ∈ w.anims → ft ≤ w.now

/-- State of the progress emissions of a single run: after `resume()`
and before the first frame, the pending one-shot zero tick and the fresh
`animate` link are queued and every value emitted so far is 0; once the
chain ticked, exactly one link (with first-tick time `ft` between the
resume and now) remains and the last emitted value `v` is bounded by the
current percentage; or the chain has self-terminated. -/
def ProgInv (d t0 : Int) (v : ℚ) (w : World) : Prop :=
  w.timer.delay = d ∧ w.timer.tick = true ∧ t0 ≤ w.now ∧ 0 ≤ v ∧
  ((w.anims = [Anim.zero, Anim.loop none] ∧ v = 0) ∨
   (∃ ft : Int, w.anims = [Anim.loop (some ft)] ∧ t0 ≤ ft ∧ ft ≤ w.now ∧
      v ≤ min (((w.now - ft : Int) : ℚ) / ((d : Int) : ℚ)) 1 * 100) ∨
   w.anims = [])

@[simp] theorem run_nil (w : World) : run w [] = (w, []) := rfl

@[simp] theorem run_cons (w : World) (e : Event) (es : List Event) :
    run w (e :: es) = ((run (step w e).1 es).1, (step w e).2 ++ (run (step w e).1 es).2) := rfl

/-! ### Equation lemmas for the operations -/

theorem resume_of_some {w : World} (hid : w.timer.timerId ≠ none) : w.resume = w := by
  unfold World.resume
  rw [if_neg hid]

theorem resume_of_none_tick {w : World} (hid : w.timer.timerId = none)
    (htk : w.timer.tick = true) :
    w.resume = { w with
      timer := { w.timer with timerId := some w.nextId, start := w.now },
      pending := w.pending ++ [(w.nextId, w.now + w.timer.remaining)],
      nextId := w.nextId + 1,
      anims := w.anims ++ [Anim.zero, Anim.loop none] } := by
  unfold World.resume
  rw [if_pos hid]
  simp only [htk, if_true]

theorem resume_of_none_notick {w : World} (hid : w.timer.timerId = none)
    (htk : w.timer.tick = false) :
    w.resume = { w with
      timer := { w.timer with timerId := some w.nextId },
      pending := w.pending ++ [(w.nextId, w.now + w.timer.remaining)],
      nextId := w.nextId + 1 } := by
  unfold World.resume
  rw [if_pos hid]
  simp only [htk, if_false, Bool.false_eq_true]

theorem pause_of_ne {w : World} (hs : w.timer.start ≠ 0) :
    w.pause = { w with
      timer := { w.timer with
        remaining := w.timer.remaining - (w.now - w.timer.start),
        start := 0, timerId := none },
      pending := clearTimeout w.timer.timerId w.pending } := by
  unfold World.pause
  rw [if_pos hs]
  rfl

theorem pause_of_eq {w : World} (hs : w.timer.start = 0) : w.pause = w := by
  unfold World.pause
  rw [if_neg (fun h => h hs)]

theorem reset_eq (w : World) :
    w.reset = { w with
      timer := { w.timer with remaining := w.timer.delay, start := 0, timerId := none },
      pending := clearTimeout w.timer.timerId w.pending } := rfl

theorem fire_of_found {w : World} {p : Nat × Int}
    (hf : w.pending.find? (fun p => decide (p.2 ≤ w.now)) = some p) :
    w.fire = ({ w with pending := w.pending.filter (fun q => q.1 ≠ p.1) },
              [Obs.complete w.now]) := by
  unfold World.fire
  rw [hf]

theorem fire_of_none {w : World}
    (hf : w.pending.find? (fun p => decide (p.2 ≤ w.now)) = none) :
    w.fire = (w, []) := by
  unfold World.fire
  rw [hf]

theorem reset_timer (w : World) :
    w.reset.timer = Timer.construct w.timer.delay w.timer.tick := rfl

theorem frame_eq (w : World) :
    w.frame =
      ({ w with anims := (w.anims.map (stepAnim w.timer.delay w.now)).filterMap Prod.fst },
       if w.timer.tick then
         (w.anims.map (stepAnim w.timer.delay w.now)).map (fun r => Obs.progress w.now r.2)
       else []) := rfl

/-! ### Invariants of reachable worlds -/

theorem reach_init (d : Int) (tk : Bool) (t0 : Int) :
    Reach d t0 (World.init (Timer.construct d tk) t0) := by
  constructor <;> simp [World.init, Timer.construct]

theorem pending_eq_nil_of_id_none {w : World} (h : Reach d t0 w)
    (hid : w.timer.timerId = none) : w.pending = [] := by
  rcases hp : w.pending with _ | ⟨p, ps⟩
  · rfl
  · have := h.pend_id p (by simp [hp])
    simp [hid] at this

/-- Cancelling the timeout the handle refers to empties the pending
list, in any reachable world. -/
theorem clearTimeout_eq_nil {d t0 : Int} {w : World} (h : Reach d t0 w) :
    clearTimeout w.timer.timerId w.pending = [] := by
  rcases hi : w.timer.timerId with _ | id
  · simpa [clearTimeout] using pending_eq_nil_of_id_none h hi
  · rw [clearTimeout, List.filter_eq_nil_iff]
    intro p hp
    have hpi := h.pend_id p hp
    rw [hi] at hpi
    simp only [Option.some.injEq] at hpi
    simp [hpi]

theorem Reach.resume {d t0 : Int} {w : World} (h : Reach d t0 w) :
    Reach d t0 w.resume := by
  by_cases hid : w.timer.timerId = none
  · have hpe : w.pending = [] := pending_eq_nil_of_id_none h hid
    have hst : w.timer.start = 0 := h.id_none hid
    rcases htk : w.timer.tick with _ | _
    · rw [resume_of_none_notick hid htk]
      refine ⟨h.delay_eq, h.now_ge, ?_, ?_, h.rem_le, ?_, ?_⟩
      · intro p hp
        simp only [hpe, List.nil_append, List.mem_singleton] at hp
        simp [hp]
      · simp [hpe]
      · intro hn
        simp at hn
      · intro hs
        exact absurd hst hs
    · rw [resume_of_none_tick hid htk]
      refine ⟨h.delay_eq, h.now_ge, ?_, ?_, h.rem_le, ?_, ?_⟩
      · intro p hp
        simp only [hpe, List.nil_append, List.mem_singleton] at hp
        simp [hp]
      · simp [hpe]
      · intro hn
        simp at hn
      · intro _
        refine ⟨le_refl _, ?_⟩
        intro p hp
        simp only [hpe, List.nil_append, List.mem_singleton] at hp
        simp [hp]
  · rw [resume_of_some hid]
    exact h

theorem Reach.pause {d t0 : Int} {w : World} (h : Reach d t0 w) :
    Reach d t0 w.pause := by
  by_cases hs : w.timer.start ≠ 0
  · rw [pause_of_ne hs]
    have hclr := clearTimeout_eq_nil h
    have hsn := (h.run_inv hs).1
    refine ⟨h.delay_eq, h.now_ge, ?_, ?_, ?_, ?_, ?_⟩
    · intro p hp
      rw [hclr] at hp
      simp at hp
    · simp [hclr]
    · have := h.rem_le
      simp only
      omega
    · intro _
      rfl
    · intro hs0
      exact absurd rfl hs0
  · rw [pause_of_eq (not_ne_iff.mp hs)]
    exact h

theorem Reach.reset {d t0 : Int} {w : World} (h : Reach d t0 w) :
    Reach d t0 w.reset := by
  rw [reset_eq]
  have hclr := clearTimeout_eq_nil h
  refine ⟨h.delay_eq, h.now_ge, ?_, ?_, ?_, ?_, ?_⟩
  · intro p hp
    rw [hclr] at hp
    simp at hp
  · simp [hclr]
  · simp [h.delay_eq]
  · intro _
    rfl
  · intro hs0
    exact absurd rfl hs0

theorem Reach.fire {d t0 : Int} {w : World} (h : Reach d t0 w) :
    Reach d t0 w.fire.1 := by
  rcases hf : w.pending.find? (fun p => decide (p.2 ≤ w.now)) with _ | p
  · rw [fire_of_none hf]
    exact h
  · rw [fire_of_found hf]
    refine ⟨h.delay_eq, h.now_ge, ?_, ?_, h.rem_le, h.id_none, ?_⟩
    · intro q hq
      exact h.pend_id q (List.mem_of_mem_filter hq)
    · exact le_trans (List.length_filter_le _ _) h.pend_len
    · intro hs
      exact ⟨(h.run_inv hs).1,
        fun q hq => (h.run_inv hs).2 q (List.mem_of_mem_filter hq)⟩

theorem Reach.frame {d t0 : Int} {w : World} (h : Reach d t0 w) :
    Reach d t0 w.frame.1 := by
  rw [frame_eq]
  exact ⟨h.delay_eq, h.now_ge, h.pend_id, h.pend_len, h.rem_le, h.id_none, h.run_inv⟩

theorem Reach.advance {d t0 : Int} {w : World} (h : Reach d t0 w) (n : Nat) :
    Reach d t0 { w with now := w.now + n } := by
  refine ⟨h.delay_eq, ?_, h.pend_id, h.pend_len, h.rem_le, h.id_none, ?_⟩
  · show t0 ≤ w.now + (n : Int)
    have := h.now_ge
    omega
  · intro hs
    obtain ⟨h1, h2⟩ := h.run_inv hs
    refine ⟨?_, h2⟩
    show w.timer.start ≤ w.now + (n : Int)
    omega

theorem Reach.step {d t0 : Int} {w : World} (h : Reach d t0 w) (e : Event) :
    Reach d t0 (step w e).1 := by
  cases e with
  | resume => exact h.resume
  | pause => exact h.pause
  | reset => exact h.reset
  | fire => exact h.fire
  | frame => exact h.frame
  | advance n => exact h.advance n

theorem Reach.run {d t0 : Int} {w : World} (h : Reach d t0 w) (es : List Event) :
    Reach d t0 (run w es).1 := by
  induction es generalizing w with
  | nil => exact h
  | cons e es ih => exact ih (h.step e)

/-! ### Fields no event ever changes -/

theorem step_timer_delay_tick (w : World) (e : Event) :
    ((step w e).1).timer.delay = w.timer.delay ∧
    ((step w e).1).timer.tick = w.timer.tick := by
  cases e with
  | resume =>
    by_cases hid : w.timer.timerId = none
    · rcases htk : w.timer.tick with _ | _
      · simp only [step]
        rw [resume_of_none_notick hid htk]
        exact ⟨rfl, htk⟩
      · simp only [step]
        rw [resume_of_none_tick hid htk]
        exact ⟨rfl, htk⟩
    · simp only [step]
      rw [resume_of_some hid]
      exact ⟨rfl, rfl⟩
  | pause =>
    by_cases hs : w.timer.start = 0
    · simp only [step]
      rw [pause_of_eq hs]
      exact ⟨rfl, rfl⟩
    · simp only [step]
      rw [pause_of_ne hs]
      exact ⟨rfl, rfl⟩
  | reset =>
    simp only [step]
    rw [reset_eq]
    exact ⟨rfl, rfl⟩
  | fire =>
    rcases hf : w.pending.find? (fun p => decide (p.2 ≤ w.now)) with _ | p
    · simp only [step]
      rw [fire_of_none hf]
      exact ⟨rfl, rfl⟩
    · simp only [step]
      rw [fire_of_found hf]
      exact ⟨rfl, rfl⟩
  | frame =>
    simp only [step]
    rw [frame_eq]
    exact ⟨rfl, rfl⟩
  | advance n => exact ⟨rfl, rfl⟩

theorem run_timer_delay_tick (w : World) (es : List Event) :
    ((run w es).1).timer.delay = w.timer.delay ∧
    ((run w es).1).timer.tick = w.timer.tick := by
  induction es generalizing w with
  | nil => exact ⟨rfl, rfl⟩
  | cons e es ih =>
    obtain ⟨h1, h2⟩ := ih (step w e).1
    obtain ⟨h3, h4⟩ := step_timer_delay_tick w e
    exact ⟨h1.trans h3, h2.trans h4⟩

theorem resume_timerId_some {w : World} (hid : w.timer.timerId = none) :
    w.resume.timer.timerId = some w.nextId := by
  rcases htk : w.timer.tick with _ | _
  · rw [resume_of_none_notick hid htk]
  · rw [resume_of_none_tick hid htk]

/-! ### Passive traces: the scheduled fire of a single run -/

theorem countCompletes_append (a b : List Obs) :
    countCompletes (a ++ b) = countCompletes a + countCompletes b := by
  unfold countCompletes
  rw [List.filter_append, List.length_append]

theorem countCompletes_progress (l : List Obs)
    (h : ∀ o ∈ l, isCompleteObs o = false) : countCompletes l = 0 := by
  unfold countCompletes
  rw [List.filter_eq_nil_iff.mpr (fun o ho => by simp [h o ho])]
  rfl

/-- Along passive events, the number of completion-callback runs plus
the fires still pending never exceeds the fires pending at the start,
and every completion happens no earlier than the scheduled time `x`. -/
theorem passive_fire_count (x : Int) :
    ∀ (es : List Event) (w : World), es.all passiveB = true → PendShape x w →
      countCompletes (run w es).2 + ((run w es).1).pending.length
          ≤ w.pending.length ∧
      (∀ t, Obs.complete t ∈ (run w es).2 → x ≤ t) := by
  intro es
  induction es with
  | nil =>
    intro w _ _
    refine ⟨by simp [countCompletes], ?_⟩
    intro t ht
    simp [run] at ht
  | cons e es ih =>
    intro w hp hshape
    rw [List.all_cons, Bool.and_eq_true] at hp
    -- per-event facts about the single step
    have key : PendShape x (step w e).1 ∧
        countCompletes (step w e).2 + ((step w e).1).pending.length
            ≤ w.pending.length ∧
        (∀ t, Obs.complete t ∈ (step w e).2 → x ≤ t) := by
      cases e with
      | resume => simp [passiveB] at hp
      | pause => simp [passiveB] at hp
      | reset => simp [passiveB] at hp
      | advance n =>
        refine ⟨hshape, by simp [step, countCompletes], ?_⟩
        intro t ht
        simp [step] at ht
      | frame =>
        simp only [step]
        rw [frame_eq]
        refine ⟨hshape, ?_, ?_⟩
        · have h0 : countCompletes (w.frame.2) = 0 := by
            rw [frame_eq]
            apply countCompletes_progress
            intro o ho
            rcases htk : w.timer.tick with _ | _ <;> simp [htk] at ho
            · obtain ⟨r, _, hr⟩ := ho
              rw [← hr]
              rfl
          rw [frame_eq] at h0
          simp only [h0]
          simp
        · intro t ht
          rcases htk : w.timer.tick with _ | _ <;> simp [htk] at ht
      | fire =>
        rcases hf : w.pending.find? (fun p => decide (p.2 ≤ w.now)) with _ | p
        · simp only [step]
          rw [fire_of_none hf]
          refine ⟨hshape, by simp [countCompletes], ?_⟩
          intro t ht
          simp at ht
        · have hpm : p ∈ w.pending := List.mem_of_find?_eq_some hf
          have hdue : x ≤ w.now := by
            rcases hshape with hnil | hone
            · rw [hnil] at hpm
              simp at hpm
            · rw [hone] at hpm
              simp at hpm
              have := List.find?_some hf
              rw [hpm] at this
              simpa using this
          rcases hshape with hnil | hone
          · rw [hnil] at hpm
            simp at hpm
          · have hp1 : p = (1, x) := by
              rw [hone] at hpm
              simpa using hpm
            simp only [step]
            rw [fire_of_found hf]
            refine ⟨?_, ?_, ?_⟩
            · left
              show w.pending.filter (fun q => q.1 ≠ p.1) = []
              rw [hone, hp1]
              simp
            · show countCompletes [Obs.complete w.now] +
                  (w.pending.filter (fun q => q.1 ≠ p.1)).length ≤ w.pending.length
              rw [hone, hp1]
              simp [countCompletes, isCompleteObs]
            · intro t ht
              simp at ht
              rw [ht]
              exact hdue
    obtain ⟨k1, k2, k3⟩ := key
    obtain ⟨i1, i2⟩ := ih (step w e).1 hp.2 k1
    rw [run_cons]
    refine ⟨?_, ?_⟩
    · simp only [countCompletes_append]
      omega
    · intro t ht
      rw [List.mem_append] at ht
      rcases ht with ht | ht
      · exact k3 t ht
      · exact i2 t ht

/-! ### The claims -/

/-- C1 (code bug): for a timer constructed without a progress callback
`resume()` never records `start` (the `this.start = Date.now()`
assignment sits inside `if (this.tick)`), so a later `pause()` takes the
`if (this.start)` false branch and is a complete no-op: `remaining` is
not reduced, `start` was never set, the pending completion fire is not
cancelled and still runs.  Here: delay 5000, no progress callback,
`resume()` at t=1000, `pause()` at t=2000 — the claim says `remaining`
becomes 4000 and the fire is cancelled; the code keeps
`remaining = 5000`, keeps the fire scheduled for t=6000 pending, and the
completion callback still runs at t=6000. -/
theorem C1_pause_is_noop_without_progress_callback :
    ((run (World.init (Timer.construct 5000 false) 1000)
        [Event.resume, Event.advance 1000, Event.pause]).1).timer.remaining = 5000 ∧
    ((run (World.init (Timer.construct 5000 false) 1000)
        [Event.resume, Event.advance 1000, Event.pause]).1).timer.start = 0 ∧
    ((run (World.init (Timer.construct 5000 false) 1000)
        [Event.resume, Event.advance 1000, Event.pause]).1).pending = [(1, 6000)] ∧
    (run (World.init (Timer.construct 5000 false) 1000)
        [Event.resume, Event.advance 1000, Event.pause, Event.advance 4000,
         Event.fire]).2 = [Obs.complete 6000] := by
  decide

/-- C2 counterexample: `resume()` on a freshly constructed timer without
a progress callback does not record `runningSince = now`: at t=1000 the
resumed timer still has `start = 0`, not the current clock value. -/
theorem C2_counterexample :
    (World.resume (World.init (Timer.construct 5000 false) 1000)).timer.start = 0 ∧
    (World.resume (World.init (Timer.construct 5000 false) 1000)).timer.start ≠
      (World.init (Timer.construct 5000 false) 1000).now := by
  decide

theorem resume_init_fields (d : Int) (tk : Bool) (t0 : Int) :
    (World.resume (World.init (Timer.construct d tk) t0)).pending = [(1, t0 + d)] ∧
    (World.resume (World.init (Timer.construct d tk) t0)).timer.start
        = (if tk then t0 else 0) ∧
    (World.resume (World.init (Timer.construct d tk) t0)).now = t0 := by
  rcases tk with _ | _
  · rw [resume_of_none_notick rfl rfl]
    refine ⟨by simp [World.init, Timer.construct], by simp [World.init, Timer.construct], rfl⟩
  · rw [resume_of_none_tick rfl rfl]
    refine ⟨by simp [World.init, Timer.construct], by simp [World.init, Timer.construct], rfl⟩

/-- C2 (amended): `resume()` on a freshly constructed, not-yet-resumed
timer schedules the completion callback as the single pending fire, due
exactly `remaining = delay` after the call; along any subsequent passive
events (time, frames, due timeouts) the completion callback runs at most
once and never before `t0 + delay`; and with enough time passing it does
run, exactly at `t0 + delay`.  However `runningSince` (`start`) is
recorded only when a progress callback was supplied — without one it
stays 0 (see the counterexample). -/
theorem C2_resume_schedules_single_fire (d : Int) (tk : Bool) (t0 : Int) (hd : 0 ≤ d)
    (es : List Event) (hp : es.all passiveB = true) :
    (World.resume (World.init (Timer.construct d tk) t0)).pending = [(1, t0 + d)] ∧
    (World.resume (World.init (Timer.construct d tk) t0)).timer.start
        = (if tk then t0 else 0) ∧
    countCompletes
        (run (World.resume (World.init (Timer.construct d tk) t0)) es).2 ≤ 1 ∧
    (∀ t, Obs.complete t ∈
        (run (World.resume (World.init (Timer.construct d tk) t0)) es).2 →
        t0 + d ≤ t) ∧
    (run (World.resume (World.init (Timer.construct d tk) t0))
        [Event.advance d.toNat, Event.fire]).2 = [Obs.complete (t0 + d)] := by
  obtain ⟨hpend, hstart, hnow⟩ := resume_init_fields d tk t0
  have hshape : PendShape (t0 + d) (World.resume (World.init (Timer.construct d tk) t0)) :=
    Or.inr hpend
  obtain ⟨hcount, hlate⟩ := passive_fire_count (t0 + d) es _ hp hshape
  refine ⟨hpend, hstart, ?_, hlate, ?_⟩
  · rw [hpend] at hcount
    simp at hcount
    omega
  · have hn : ((d.toNat : Nat) : Int) = d := Int.toNat_of_nonneg hd
    rw [run_cons, run_cons, run_nil]
    simp only [step]
    have hfind :
        ({ World.resume (World.init (Timer.construct d tk) t0) with
            now := (World.resume (World.init (Timer.construct d tk) t0)).now
              + (d.toNat : Int) } : World).pending.find?
          (fun p => decide (p.2 ≤
            ({ World.resume (World.init (Timer.construct d tk) t0) with
                now := (World.resume (World.init (Timer.construct d tk) t0)).now
                  + (d.toNat : Int) } : World).now))
          = some (1, t0 + d) := by
      show (World.resume (World.init (Timer.construct d tk) t0)).pending.find?
          (fun p => decide (p.2 ≤
            (World.resume (World.init (Timer.construct d tk) t0)).now
              + (d.toNat : Int))) = some (1, t0 + d)
      rw [hpend, hnow, hn]
      simp
    rw [fire_of_found hfind]
    show [] ++ ([Obs.complete _] ++ []) = [Obs.complete (t0 + d)]
    simp [hnow, hn]

theorem C2_witness :
    (World.resume (World.init (Timer.construct 5000 true) 1000)).pending
        = [(1, 6000)] ∧
    countCompletes (run (World.resume (World.init (Timer.construct 5000 true) 1000))
        [Event.advance 7000, Event.fire, Event.fire]).2 ≤ 1 ∧
    (run (World.resume (World.init (Timer.construct 5000 true) 1000))
        [Event.advance 5000, Event.fire]).2 = [Obs.complete 6000] := by
  obtain ⟨h1, _, h3, _, h5⟩ := C2_resume_schedules_single_fire 5000 true 1000
    (by decide) [Event.advance 7000, Event.fire, Event.fire] (by decide)
  exact ⟨h1, h3, h5⟩

/-- Along a trace whose pauses are all safe (issued while not marked
running, or no later than the pending fire time), `remaining` never goes
negative. -/
theorem rem_nonneg_of_safe (d t0 : Int) (hd : 0 ≤ d) :
    ∀ (es : List Event) (w : World), Reach d t0 w → safePauses w es = true →
      0 ≤ w.timer.remaining → 0 ≤ ((run w es).1).timer.remaining := by
  intro es
  induction es with
  | nil =>
    intro w _ _ h0
    exact h0
  | cons e es ih =>
    intro w hr hs h0
    rw [run_cons]
    cases e with
    | pause =>
      simp only [safePauses, Bool.and_eq_true] at hs
      obtain ⟨hc, hrest⟩ := hs
      apply ih _ (hr.step Event.pause) hrest
      by_cases hst : w.timer.start = 0
      · simp only [step]
        rw [pause_of_eq hst]
        exact h0
      · simp only [Bool.or_eq_true] at hc
        rcases hc with hc0 | hany
        · exact absurd (by simpa using hc0) hst
        · obtain ⟨p, hpmem, hple⟩ := List.any_eq_true.mp hany
          have h2 := (hr.run_inv hst).2 p hpmem
          have hle : w.now ≤ p.2 := of_decide_eq_true hple
          simp only [step]
          rw [pause_of_ne hst]
          show 0 ≤ w.timer.remaining - (w.now - w.timer.start)
          omega
    | reset =>
      simp only [safePauses, Bool.true_and] at hs
      apply ih _ (hr.step Event.reset) hs
      simp only [step]
      rw [reset_eq]
      show 0 ≤ w.timer.delay
      rw [hr.delay_eq]
      exact hd
    | resume =>
      simp only [safePauses, Bool.true_and] at hs
      apply ih _ (hr.step Event.resume) hs
      by_cases hid : w.timer.timerId = none
      · rcases htk : w.timer.tick with _ | _
        · simp only [step]
          rw [resume_of_none_notick hid htk]
          exact h0
        · simp only [step]
          rw [resume_of_none_tick hid htk]
          exact h0
      · simp only [step]
        rw [resume_of_some hid]
        exact h0
    | fire =>
      simp only [safePauses, Bool.true_and] at hs
      apply ih _ (hr.step Event.fire) hs
      rcases hf : w.pending.find? (fun p => decide (p.2 ≤ w.now)) with _ | p
      · simp only [step]
        rw [fire_of_none hf]
        exact h0
      · simp only [step]
        rw [fire_of_found hf]
        exact h0
    | frame =>
      simp only [safePauses, Bool.true_and] at hs
      apply ih _ (hr.step Event.frame) hs
      simp only [step]
      rw [frame_eq]
      exact h0
    | advance n =>
      simp only [safePauses, Bool.true_and] at hs
      apply ih _ (hr.step (Event.advance n)) hs
      exact h0

/-- C4 (amended): starting from a freshly constructed timer with
`0 ≤ delay`, `remaining` never exceeds `delay` under any operation
sequence; and `remaining` stays at or above 0 as long as every `pause()`
is issued while the timer is not marked running or no later than the
pending scheduled fire time — a `pause()` after the nominal fire time,
however, drives `remaining` negative (see the counterexample), so the
claimed lower bound 0 does not hold unconditionally. -/
theorem C4_remaining_bounds (d : Int) (tk : Bool) (t0 : Int) (hd : 0 ≤ d)
    (es : List Event) :
    ((run (World.init (Timer.construct d tk) t0) es).1).timer.remaining ≤ d ∧
    (safePauses (World.init (Timer.construct d tk) t0) es = true →
      0 ≤ ((run (World.init (Timer.construct d tk) t0) es).1).timer.remaining) := by
  constructor
  · exact ((reach_init d tk t0).run es).rem_le
  · intro hsafe
    exact rem_nonneg_of_safe d t0 hd es _ (reach_init d tk t0) hsafe hd

theorem C4_witness :
    ((run (World.init (Timer.construct 5000 true) 1000)
        [Event.resume, Event.advance 2000, Event.pause]).1).timer.remaining ≤ 5000 ∧
    0 ≤ ((run (World.init (Timer.construct 5000 true) 1000)
        [Event.resume, Event.advance 2000, Event.pause]).1).timer.remaining :=
  ⟨(C4_remaining_bounds 5000 true 1000 (by decide)
      [Event.resume, Event.advance 2000, Event.pause]).1,
   (C4_remaining_bounds 5000 true 1000 (by decide)
      [Event.resume, Event.advance 2000, Event.pause]).2 (by decide)⟩

/-- C3 (code bug): for a timer constructed without a progress callback
the resume/pause/resume scenario does not accumulate elapsed running
time: `pause()` is a no-op (see C1), the second `resume()` is also a
no-op because `timerId` is still set, and the completion fires at the
originally scheduled time.  With delay 5000, `resume()` at t=1000,
`pause()` at t=3000 (e=2000) and `resume()` at t=3500, the claim
predicts a fire at t=6500; the code fires at t=6000, and after the
pause `remaining` is still 5000 with the original fire still pending. -/
theorem C3_pause_resume_without_progress_callback_fires_early :
    (run (World.init (Timer.construct 5000 false) 1000)
        [Event.resume, Event.advance 2000, Event.pause, Event.advance 500,
         Event.resume, Event.advance 2500, Event.fire]).2 = [Obs.complete 6000] ∧
    ((run (World.init (Timer.construct 5000 false) 1000)
        [Event.resume, Event.advance 2000, Event.pause]).1).timer.remaining = 5000 ∧
    ((run (World.init (Timer.construct 5000 false) 1000)
        [Event.resume, Event.advance 2000, Event.pause]).1).pending = [(1, 6000)] := by
  decide

/-- C4 counterexample: a `pause()` issued after the nominal fire time
drives `remaining` negative, outside `[0, delay]`.  Delay 5000 with a
progress callback, `resume()` at t=1000, the scheduled fire runs at
t=6000, `pause()` at t=7000: `remaining` becomes 5000 − (7000 − 1000) =
−1000. -/
theorem C4_counterexample :
    ((run (World.init (Timer.construct 5000 true) 1000)
        [Event.resume, Event.advance 5000, Event.fire, Event.advance 1000,
         Event.pause]).1).timer.remaining = -1000 ∧
    ((run (World.init (Timer.construct 5000 true) 1000)
        [Event.resume, Event.advance 5000, Event.fire, Event.advance 1000,
         Event.pause]).1).timer.remaining < 0 := by
  decide

/-- C5: in every world reachable from a freshly constructed timer there
is at most one pending completion fire, and `resume()` is idempotent —
a second `resume()` with no intervening `pause()`/`reset()` finds
`this.timerId` set, takes the `if (!this.timerId)` false branch, and
changes nothing, so nothing is double-scheduled. -/
theorem C5_at_most_one_pending_fire_and_resume_idempotent :
    (∀ (d : Int) (tk : Bool) (t0 : Int) (es : List Event),
        ((run (World.init (Timer.construct d tk) t0) es).1).pending.length ≤ 1) ∧
    (∀ w : World, w.resume.resume = w.resume) := by
  constructor
  · intro d tk t0 es
    exact ((reach_init d tk t0).run es).pend_len
  · intro w
    by_cases hid : w.timer.timerId = none
    · exact resume_of_some (by rw [resume_timerId_some hid]; simp)
    · rw [resume_of_some hid, resume_of_some hid]

/-- C8 (amended): `reset()` in any reachable world cancels the pending
fire and restores the `Timer`'s own fields exactly to their
freshly-constructed values (`remaining = delay`, `start = 0`,
`timerId` cleared), so subsequent completion-fire behaviour matches a
fresh timer; however an in-flight progress-animation chain started
before the reset is not cancelled (see the counterexample), which is
the one observable difference from a fresh timer. -/
theorem C8_reset_restores_fresh_timer_state (d : Int) (tk : Bool) (t0 : Int)
    (es : List Event) :
    ((run (World.init (Timer.construct d tk) t0) es).1.reset).timer
        = Timer.construct d tk ∧
    ((run (World.init (Timer.construct d tk) t0) es).1.reset).pending = [] := by
  have h : Reach d t0 (run (World.init (Timer.construct d tk) t0) es).1 :=
    (reach_init d tk t0).run es
  have hd := h.delay_eq
  have htk : ((run (World.init (Timer.construct d tk) t0) es).1).timer.tick = tk :=
    (run_timer_delay_tick _ es).2
  constructor
  · rw [reset_timer, hd, htk]
  · rw [reset_eq]
    exact clearTimeout_eq_nil h

/-- C8 counterexample: after `reset()` the timer is not observationally
identical to a fresh one — the progress-animation chain started by the
earlier `resume()` keeps ticking.  Delay 1000 with a progress callback:
`resume()` at t=1000, a frame at t=1000, `reset()` at t=1100; a frame at
t=1200 still invokes the progress callback (with 20), while a freshly
constructed timer sees no callback at all under the same subsequent
events. -/
theorem C8_counterexample :
    (run ((run (World.init (Timer.construct 1000 true) 1000)
          [Event.resume, Event.frame, Event.advance 100, Event.reset]).1)
        [Event.advance 100, Event.frame]).2 = [Obs.progress 1200 20] ∧
    (run (World.init (Timer.construct 1000 true) 1100)
        [Event.advance 100, Event.frame]).2 = [] := by
  constructor
  · simp [run, step, World.resume, World.pause, World.reset, World.clear, World.frame,
      World.fire, World.init, Timer.construct, clearTimeout, stepAnim]
    norm_num
  · simp [run, step, World.frame, World.init, Timer.construct]

/-- C9 counterexample: an attribute value that fails validation is not
treated like an absent value: `fb-tabs-pauseable="maybe"` fails
`validation.isBoolean`, `Booster.parse` logs and `continue`s without
setting the key, so the data store yields `undefined` — while an absent
attribute silently yields the default `false`. -/
theorem C9_counterexample :
    parseAttribute pauseableAttr (some "maybe") ≠ parseAttribute pauseableAttr none ∧
    parseAttribute pauseableAttr (some "maybe") = (none, true) ∧
    parseAttribute pauseableAttr none = (some false, false) := by
  decide

/-- C9 (amended): for every configured attribute, a non-empty value that
fails validation is logged and the key is left unset in the data store
(a later `get` yields `undefined`), unlike an absent value, which
silently falls back to the attribute's default; the invalid case
therefore reaches the consumer as `undefined`, not as the default. -/
theorem C9_invalid_value_leaves_key_unset {V : Type} (attr : AttrSpec V) (v : String)
    (f : String → Bool) (hf : attr.validate = some f) (hv : f v = false)
    (hne : v ≠ "") :
    parseAttribute attr (some v) = (none, true) ∧
    parseAttribute attr none = (some attr.defaultValue, false) := by
  constructor
  · have hb : boosterValidate attr v = false := by
      unfold boosterValidate
      rw [hf]
      exact hv
    simp only [parseAttribute]
    rw [if_neg hne]
    simp [hb]
  · rfl

theorem C9_witness :
    parseAttribute pauseableAttr (some "maybe") = (none, true) ∧
    parseAttribute pauseableAttr none = (some false, false) :=
  C9_invalid_value_leaves_key_unset pauseableAttr "maybe" isBoolean rfl (by decide)
    (by decide)

/-- C10: the scheduled completion callback `() => this.cb()` never
clears the stale `timerId` handle, an animation frame never changes the
timer's fields either, so after a fire every `resume()` finds `timerId`
still set and is a complete no-op (no state change, nothing scheduled);
`reset()`, or `pause()` while `start` is nonzero, clears `timerId` and
so restores `resume()`'s ability to schedule, while `pause()` with
`start = 0` restores nothing. -/
theorem C10_stale_timerId_blocks_resume (w : World) (h : w.timer.timerId ≠ none) :
    w.fire.1.timer = w.timer ∧
    w.frame.1.timer = w.timer ∧
    w.resume = w ∧
    w.reset.timer.timerId = none ∧
    (w.timer.start ≠ 0 → w.pause.timer.timerId = none) ∧
    (w.timer.start = 0 → w.pause = w) := by
  refine ⟨?_, ?_, resume_of_some h, ?_, ?_, ?_⟩
  · rcases hf : w.pending.find? (fun p => decide (p.2 ≤ w.now)) with _ | p
    · rw [fire_of_none hf]
    · rw [fire_of_found hf]
  · rw [frame_eq]
  · rw [reset_eq]
  · intro hs
    rw [pause_of_ne hs]
  · intro hs
    exact pause_of_eq hs

/-! ### The progress-animation chain -/

theorem progressValues_append (a b : List Obs) :
    progressValues (a ++ b) = progressValues a ++ progressValues b :=
  List.filterMap_append a b _

theorem chainB_append (a : List ℚ) : ∀ (v : ℚ) (b : List ℚ), chainB v a = true →
    chainB (a.getLastD v) b = true → chainB v (a ++ b) = true := by
  induction a with
  | nil =>
    intro v b _ h2
    exact h2
  | cons q qs ih =>
    intro v b h1 h2
    simp only [chainB, Bool.and_eq_true] at h1
    rw [List.cons_append]
    simp only [chainB, Bool.and_eq_true]
    refine ⟨h1.1, ih q b h1.2 ?_⟩
    rwa [List.getLastD_cons] at h2

theorem animClock_step (w : World) (e : Event) (h : AnimClock w) :
    AnimClock (step w e).1 := by
  cases e with
  | resume =>
    simp only [step]
    by_cases hid : w.timer.timerId = none
    · rcases htk : w.timer.tick with _ | _
      · rw [resume_of_none_notick hid htk]
        exact h
      · rw [resume_of_none_tick hid htk]
        intro ft hm
        rw [List.mem_append] at hm
        rcases hm with hm | hm
        · exact h ft hm
        · simp at hm
    · rw [resume_of_some hid]
      exact h
  | pause =>
    simp only [step]
    by_cases hs : w.timer.start = 0
    · rw [pause_of_eq hs]
      exact h
    · rw [pause_of_ne hs]
      exact h
  | reset =>
    simp only [step]
    rw [reset_eq]
    exact h
  | fire =>
    simp only [step]
    rcases hf : w.pending.find? (fun p => decide (p.2 ≤ w.now)) with _ | p
    · rw [fire_of_none hf]
      exact h
    · rw [fire_of_found hf]
      exact h
  | frame =>
    simp only [step]
    rw [frame_eq]
    intro ft hm
    simp only [List.mem_filterMap] at hm
    obtain ⟨r, hr, hfst⟩ := hm
    rw [List.mem_map] at hr
    obtain ⟨a, ha, hra⟩ := hr
    rcases a with _ | ft0
    · rw [← hra] at hfst
      simp [stepAnim] at hfst
    · rw [← hra] at hfst
      simp only [stepAnim] at hfst
      by_cases hlt : w.now - ft0.getD w.now < w.timer.delay
      · rw [if_pos hlt] at hfst
        simp only [Option.some.injEq, Anim.loop.injEq] at hfst
        rcases ft0 with _ | f
        · simp at hfst
          rw [← hfst]
        · simp at hfst
          rw [← hfst]
          exact h f ha
      · rw [if_neg hlt] at hfst
        exact absurd hfst (by simp)
  | advance n =>
    intro ft hm
    have := h ft hm
    show ft ≤ w.now + (n : Int)
    omega

theorem stepAnim_snd_bounds {d ts : Int} (hd : 0 < d) (a : Anim)
    (h : ∀ ft : Int, a = Anim.loop (some ft) → ft ≤ ts) :
    0 ≤ (stepAnim d ts a).2 ∧ (stepAnim d ts a).2 ≤ 100 := by
  rcases a with _ | ft
  · constructor <;> simp [stepAnim]
  · have hstart : ft.getD ts ≤ ts := by
      rcases ft with _ | f
      · simp
      · simpa using h f rfl
    have hdq : (0 : ℚ) < (d : ℚ) := by exact_mod_cast hd
    have he : (0 : ℚ) ≤ ((ts - ft.getD ts : Int) : ℚ) := by
      have : (0 : Int) ≤ ts - ft.getD ts := by omega
      exact_mod_cast this
    constructor
    · show 0 ≤ min (((ts - ft.getD ts : Int) : ℚ) / (d : ℚ)) 1 * 100
      apply mul_nonneg _ (by norm_num)
      exact le_min (div_nonneg he (le_of_lt hdq)) (by norm_num)
    · show min (((ts - ft.getD ts : Int) : ℚ) / (d : ℚ)) 1 * 100 ≤ 100
      calc min (((ts - ft.getD ts : Int) : ℚ) / (d : ℚ)) 1 * 100
          ≤ 1 * 100 := mul_le_mul_of_nonneg_right (min_le_right _ _) (by norm_num)
        _ = 100 := by norm_num

theorem frame_progress_bounds {w : World} (hd : 0 < w.timer.delay) (h : AnimClock w) :
    ∀ (t : Int) (q : ℚ), Obs.progress t q ∈ w.frame.2 → 0 ≤ q ∧ q ≤ 100 := by
  rw [frame_eq]
  intro t q hq
  rcases htk : w.timer.tick with _ | _
  · rw [htk] at hq
    simp at hq
  · rw [htk] at hq
    rw [if_pos rfl] at hq
    simp only [List.mem_map] at hq
    obtain ⟨r, hr, hobs⟩ := hq
    obtain ⟨a, ha, hra⟩ := hr
    rw [Obs.progress.injEq] at hobs
    obtain ⟨-, hq2⟩ := hobs
    rw [← hq2, ← hra]
    exact stepAnim_snd_bounds hd a (fun ft hft => h ft (hft ▸ ha))

theorem progress_range_run (d : Int) (hd : 0 < d) :
    ∀ (es : List Event) (w : World), w.timer.delay = d → AnimClock w →
      ∀ (t : Int) (q : ℚ), Obs.progress t q ∈ (run w es).2 → 0 ≤ q ∧ q ≤ 100 := by
  intro es
  induction es with
  | nil =>
    intro w _ _ t q hq
    simp [run] at hq
  | cons e es ih =>
    intro w hdel hac t q hq
    rw [run_cons] at hq
    rw [List.mem_append] at hq
    rcases hq with hq | hq
    · cases e with
      | frame =>
        simp only [step] at hq
        exact frame_progress_bounds (by rw [hdel]; exact hd) hac t q hq
      | fire =>
        simp only [step] at hq
        rcases hf : w.pending.find? (fun p => decide (p.2 ≤ w.now)) with _ | p
        · rw [fire_of_none hf] at hq
          simp at hq
        · rw [fire_of_found hf] at hq
          simp at hq
      | resume => simp [step] at hq
      | pause => simp [step] at hq
      | reset => simp [step] at hq
      | advance n => simp [step] at hq
    · exact ih (step w e).1 ((step_timer_delay_tick w e).1.trans hdel)
        (animClock_step w e hac) t q hq

theorem stepAnim_zero (d ts : Int) : stepAnim d ts Anim.zero = (none, 0) := rfl

theorem stepAnim_loop_none_fst {d : Int} (ts : Int) (hd : 0 < d) :
    (stepAnim d ts (Anim.loop none)).1 = some (Anim.loop (some ts)) := by
  simp only [stepAnim, Option.getD_none]
  rw [if_pos (by omega)]

theorem stepAnim_loop_none_snd (d ts : Int) :
    (stepAnim d ts (Anim.loop none)).2 = 0 := by
  simp only [stepAnim, Option.getD_none]
  rw [show ((ts - ts : Int) : ℚ) = 0 by push_cast; ring, zero_div]
  rw [min_eq_left (by norm_num : (0 : ℚ) ≤ 1)]
  norm_num

theorem stepAnim_loop_some (d ts f : Int) :
    stepAnim d ts (Anim.loop (some f)) =
      (if ts - f < d then some (Anim.loop (some f)) else none,
       min (((ts - f : Int) : ℚ) / ((d : Int) : ℚ)) 1 * 100) := rfl

theorem minDiv_mono {d a b : Int} (hd : 0 < d) (hab : a ≤ b) :
    min ((a : ℚ) / (d : ℚ)) 1 * 100 ≤ min ((b : ℚ) / (d : ℚ)) 1 * 100 := by
  have hdq : (0 : ℚ) < (d : ℚ) := by exact_mod_cast hd
  apply mul_le_mul_of_nonneg_right _ (by norm_num : (0 : ℚ) ≤ 100)
  apply min_le_min _ (le_refl 1)
  exact (div_le_div_iff_of_pos_right hdq).mpr (by exact_mod_cast hab)

theorem one_le_of_min_mul_eq {x : ℚ} (h : min x 1 * 100 = 100) : 1 ≤ x := by
  have h1 : min x 1 * 100 = 1 * 100 := by
    rw [h]
    norm_num
  have h2 : min x 1 = 1 := mul_right_cancel₀ (by norm_num) h1
  exact min_eq_right_iff.mp h2

theorem prog_inv_step {d t0 : Int} (hd : 0 < d) {v : ℚ} {w : World} (e : Event)
    (hp : passiveB e = true) (h : ProgInv d t0 v w) :
    ProgInv d t0 ((progressValues (step w e).2).getLastD v) (step w e).1 ∧
    chainB v (progressValues (step w e).2) = true ∧
    (∀ (t : Int) (q : ℚ), Obs.progress t q ∈ (step w e).2 → q = 100 → t0 + d ≤ t) := by
  obtain ⟨hdel, htk, hnow, hv, hcase⟩ := h
  cases e with
  | resume => simp [passiveB] at hp
  | pause => simp [passiveB] at hp
  | reset => simp [passiveB] at hp
  | advance n =>
    refine ⟨?_, rfl, ?_⟩
    · refine ⟨hdel, htk, ?_, hv, ?_⟩
      · show t0 ≤ w.now + (n : Int)
        omega
      · rcases hcase with ⟨ha, hv0⟩ | ⟨ft, ha, h1, h2, h3⟩ | ha
        · exact Or.inl ⟨ha, hv0⟩
        · refine Or.inr (Or.inl ⟨ft, ha, h1, ?_, ?_⟩)
          · show ft ≤ w.now + (n : Int)
            omega
          · refine le_trans h3 ?_
            show min (((w.now - ft : Int) : ℚ) / ((d : Int) : ℚ)) 1 * 100 ≤
              min (((w.now + (n : Int) - ft : Int) : ℚ) / ((d : Int) : ℚ)) 1 * 100
            exact minDiv_mono hd (by omega)
        · exact Or.inr (Or.inr ha)
    · intro t q hq
      simp [step] at hq
  | fire =>
    rcases hf : w.pending.find? (fun p => decide (p.2 ≤ w.now)) with _ | p
    · simp only [step]
      rw [fire_of_none hf]
      exact ⟨⟨hdel, htk, hnow, hv, hcase⟩, rfl, by intro t q hq; simp at hq⟩
    · simp only [step]
      rw [fire_of_found hf]
      exact ⟨⟨hdel, htk, hnow, hv, hcase⟩, rfl, by intro t q hq; simp at hq⟩
  | frame =>
    simp only [step]
    rw [frame_eq, hdel, htk, if_pos rfl]
    rcases hcase with ⟨ha, hv0⟩ | ⟨ft, ha, h1, h2, h3⟩ | ha
    · -- before the first frame: the zero tick and the fresh chain link run
      subst hv0
      rw [ha]
      have hobs : List.map (fun r => Obs.progress w.now r.2)
          (List.map (stepAnim d w.now) [Anim.zero, Anim.loop none])
          = [Obs.progress w.now 0, Obs.progress w.now 0] := by
        simp [stepAnim_zero, stepAnim_loop_none_snd]
      have hfm : List.filterMap Prod.fst
          (List.map (stepAnim d w.now) [Anim.zero, Anim.loop none])
          = [Anim.loop (some w.now)] := by
        simp [stepAnim_zero, stepAnim_loop_none_fst w.now hd]
      rw [hobs, hfm]
      refine ⟨?_, ?_, ?_⟩
      · refine ⟨hdel, htk, hnow, by norm_num [progressValues], ?_⟩
        refine Or.inr (Or.inl ⟨w.now, rfl, hnow, le_refl _, ?_⟩)
        show (0 : ℚ) ≤ _
        exact (stepAnim_loop_none_snd d w.now).ge
      · simp [progressValues, chainB]
      · intro t q hq hq100
        simp only [List.mem_cons, List.not_mem_nil, or_false, Obs.progress.injEq] at hq
        rcases hq with hq | hq <;>
          · rw [hq.2] at hq100
            norm_num at hq100
    · -- one live chain link
      rw [ha]
      have hobs : List.map (fun r => Obs.progress w.now r.2)
          (List.map (stepAnim d w.now) [Anim.loop (some ft)])
          = [Obs.progress w.now
              (min (((w.now - ft : Int) : ℚ) / ((d : Int) : ℚ)) 1 * 100)] := by
        simp [stepAnim_loop_some]
      have hgl : (progressValues [Obs.progress w.now
            (min (((w.now - ft : Int) : ℚ) / ((d : Int) : ℚ)) 1 * 100)]).getLastD v
          = min (((w.now - ft : Int) : ℚ) / ((d : Int) : ℚ)) 1 * 100 := by
        simp [progressValues, List.getLastD_cons, List.getLastD_nil]
      have hchain : chainB v (progressValues [Obs.progress w.now
            (min (((w.now - ft : Int) : ℚ) / ((d : Int) : ℚ)) 1 * 100)]) = true := by
        simp only [progressValues, List.filterMap_cons, List.filterMap_nil, chainB,
          Bool.and_eq_true, decide_eq_true_eq]
        exact ⟨h3, trivial⟩
      have hlate : ∀ (t : Int) (q : ℚ), Obs.progress t q ∈ [Obs.progress w.now
            (min (((w.now - ft : Int) : ℚ) / ((d : Int) : ℚ)) 1 * 100)] →
          q = 100 → t0 + d ≤ t := by
        intro t q hq hq100
        simp only [List.mem_cons, List.not_mem_nil, or_false, Obs.progress.injEq] at hq
        obtain ⟨ht, hqv⟩ := hq
        rw [hqv] at hq100
        have hone : (1 : ℚ) ≤ ((w.now - ft : Int) : ℚ) / ((d : Int) : ℚ) :=
          one_le_of_min_mul_eq hq100
        have hdq : (0 : ℚ) < ((d : Int) : ℚ) := by exact_mod_cast hd
        have hge : ((d : Int) : ℚ) ≤ ((w.now - ft : Int) : ℚ) := (one_le_div hdq).mp hone
        have hgi : d ≤ w.now - ft := by exact_mod_cast hge
        rw [ht]
        omega
      by_cases hlt : w.now - ft < d
      · have hfm : List.filterMap Prod.fst
            (List.map (stepAnim d w.now) [Anim.loop (some ft)])
            = [Anim.loop (some ft)] := by
          simp [stepAnim_loop_some, if_pos hlt]
        rw [hobs, hfm]
        refine ⟨?_, hchain, hlate⟩
        refine ⟨hdel, htk, hnow, ?_, ?_⟩
        · rw [hgl]
          exact le_trans hv h3
        · refine Or.inr (Or.inl ⟨ft, rfl, h1, h2, ?_⟩)
          rw [hgl]
      · have hfm : List.filterMap Prod.fst
            (List.map (stepAnim d w.now) [Anim.loop (some ft)])
            = [] := by
          simp [stepAnim_loop_some, if_neg hlt]
        rw [hobs, hfm]
        refine ⟨?_, hchain, hlate⟩
        refine ⟨hdel, htk, hnow, ?_, Or.inr (Or.inr rfl)⟩
        rw [hgl]
        exact le_trans hv h3
    · -- the chain has self-terminated
      rw [ha]
      exact ⟨⟨hdel, htk, hnow, hv, Or.inr (Or.inr rfl)⟩, rfl,
        by intro t q hq; simp at hq⟩

theorem prog_passive_run {d t0 : Int} (hd : 0 < d) :
    ∀ (es : List Event) (w : World) (v : ℚ), es.all passiveB = true → ProgInv d t0 v w →
      chainB v (progressValues (run w es).2) = true ∧
      (∀ (t : Int) (q : ℚ), Obs.progress t q ∈ (run w es).2 → q = 100 → t0 + d ≤ t) := by
  intro es
  induction es with
  | nil =>
    intro w v _ _
    refine ⟨rfl, ?_⟩
    intro t q hq
    simp [run] at hq
  | cons e es ih =>
    intro w v hp hinv
    rw [List.all_cons, Bool.and_eq_true] at hp
    obtain ⟨k1, k2, k3⟩ := prog_inv_step hd e hp.1 hinv
    obtain ⟨i1, i2⟩ := ih (step w e).1 _ hp.2 k1
    rw [run_cons]
    constructor
    · rw [progressValues_append]
      exact chainB_append _ v _ k2 i1
    · intro t q hq hq100
      rw [List.mem_append] at hq
      rcases hq with hq | hq
      · exact k3 t q hq hq100
      · exact i2 t q hq hq100

theorem prog_head_zero :
    ∀ (es : List Event) (w : World), es.all passiveB = true →
      w.anims = [Anim.zero, Anim.loop none] → w.timer.tick = true →
      (progressValues (run w es).2).head? = none ∨
      (progressValues (run w es).2).head? = some 0 := by
  intro es
  induction es with
  | nil =>
    intro w _ _ _
    left
    rfl
  | cons e es ih =>
    intro w hp ha htk
    rw [List.all_cons, Bool.and_eq_true] at hp
    rw [run_cons, progressValues_append]
    cases e with
    | resume => simp [passiveB] at hp
    | pause => simp [passiveB] at hp
    | reset => simp [passiveB] at hp
    | advance n =>
      rw [show (step w (Event.advance n)).2 = [] from rfl]
      rw [show progressValues [] = [] from rfl, List.nil_append]
      exact ih _ hp.2 ha htk
    | fire =>
      rcases hf : w.pending.find? (fun p => decide (p.2 ≤ w.now)) with _ | p
      · have h2 : (step w Event.fire).2 = [] := by
          simp only [step]
          rw [fire_of_none hf]
        rw [h2, show progressValues [] = [] from rfl, List.nil_append]
        refine ih _ hp.2 ?_ ?_
        · show (step w Event.fire).1.anims = _
          simp only [step]
          rw [fire_of_none hf]
          exact ha
        · show (step w Event.fire).1.timer.tick = true
          simp only [step]
          rw [fire_of_none hf]
          exact htk
      · have h2 : (step w Event.fire).2 = [Obs.complete w.now] := by
          simp only [step]
          rw [fire_of_found hf]
        rw [h2, show progressValues [Obs.complete w.now] = [] from rfl, List.nil_append]
        refine ih _ hp.2 ?_ ?_
        · show (step w Event.fire).1.anims = _
          simp only [step]
          rw [fire_of_found hf]
          exact ha
        · show (step w Event.fire).1.timer.tick = true
          simp only [step]
          rw [fire_of_found hf]
          exact htk
    | frame =>
      right
      have h2 : (step w Event.frame).2
          = List.map (fun r => Obs.progress w.now r.2)
              (List.map (stepAnim w.timer.delay w.now) w.anims) := by
        simp only [step]
        rw [frame_eq, htk, if_pos rfl]
      rw [h2, ha]
      have h3 : List.map (fun r => Obs.progress w.now r.2)
          (List.map (stepAnim w.timer.delay w.now) [Anim.zero, Anim.loop none])
          = Obs.progress w.now 0
              :: [Obs.progress w.now ((stepAnim w.timer.delay w.now (Anim.loop none)).2)] := by
        simp [stepAnim_zero]
      rw [h3]
      rfl

theorem loopCount_frame (d ts : Int) (l : List Anim) :
    ((List.filterMap Prod.fst (l.map (stepAnim d ts))).filter isLoopAnim).length
      ≤ (l.filter isLoopAnim).length := by
  induction l with
  | nil => simp
  | cons a l ih =>
    rw [List.map_cons]
    rcases a with _ | ft
    · rw [List.filterMap_cons_none (by rfl : (stepAnim d ts Anim.zero).1 = none)]
      rw [List.filter_cons_of_neg (by simp [isLoopAnim])]
      exact ih
    · rw [List.filter_cons_of_pos (by simp [isLoopAnim])]
      rcases hcase : (stepAnim d ts (Anim.loop ft)).1 with _ | b
      · rw [List.filterMap_cons_none hcase]
        simp only [List.length_cons]
        omega
      · rw [List.filterMap_cons_some hcase]
        rw [List.filter_cons]
        split
        · simp only [List.length_cons]
          omega
        · simp only [List.length_cons]
          omega

theorem loopCount_passive :
    ∀ (es : List Event) (w : World), es.all passiveB = true →
      (((run w es).1).anims.filter isLoopAnim).length
        ≤ (w.anims.filter isLoopAnim).length := by
  intro es
  induction es with
  | nil =>
    intro w _
    exact le_refl _
  | cons e es ih =>
    intro w hp
    rw [List.all_cons, Bool.and_eq_true] at hp
    rw [run_cons]
    refine le_trans (ih _ hp.2) ?_
    cases e with
    | resume => simp [passiveB] at hp
    | pause => simp [passiveB] at hp
    | reset => simp [passiveB] at hp
    | fire =>
      rcases hf : w.pending.find? (fun p => decide (p.2 ≤ w.now)) with _ | p
      · simp only [step]
        rw [fire_of_none hf]
      · simp only [step]
        rw [fire_of_found hf]
    | frame =>
      simp only [step]
      rw [frame_eq]
      exact loopCount_frame _ _ _
    | advance n => exact le_refl _

/-- C6 counterexample: with a progress callback the reported values are
not globally non-decreasing, and 100 can be reached before `delay` has
elapsed since the most recent `resume()`.  Delay 1000: `resume()` at
t=1000, a frame (two 0s), `pause()` at t=1300, `resume()` at t=1400; the
dangling first chain keeps ticking, so the frame at t=1400 reports 40
and then the new run's 0s, and the frame at t=2000 reports 100 — only
600 after the most recent resume — followed by 60. -/
theorem C6_counterexample :
    (run (World.init (Timer.construct 1000 true) 1000)
        [Event.resume, Event.frame, Event.advance 300, Event.pause, Event.advance 100,
         Event.resume, Event.frame, Event.advance 600, Event.frame]).2
      = [Obs.progress 1000 0, Obs.progress 1000 0, Obs.progress 1400 40,
         Obs.progress 1400 0, Obs.progress 1400 0, Obs.progress 2000 100,
         Obs.progress 2000 60] ∧
    chainB 0 (progressValues
        (run (World.init (Timer.construct 1000 true) 1000)
          [Event.resume, Event.frame, Event.advance 300, Event.pause, Event.advance 100,
           Event.resume, Event.frame, Event.advance 600, Event.frame]).2) = false := by
  have h : (run (World.init (Timer.construct 1000 true) 1000)
        [Event.resume, Event.frame, Event.advance 300, Event.pause, Event.advance 100,
         Event.resume, Event.frame, Event.advance 600, Event.frame]).2
      = [Obs.progress 1000 0, Obs.progress 1000 0, Obs.progress 1400 40,
         Obs.progress 1400 0, Obs.progress 1400 0, Obs.progress 2000 100,
         Obs.progress 2000 60] := by
    simp [run, step, World.resume, World.pause, World.frame, World.fire, World.clear,
      World.init, Timer.construct, clearTimeout, stepAnim]
    norm_num
  refine ⟨h, ?_⟩
  rw [h]
  simp only [progressValues, List.filterMap_cons, List.filterMap_nil, chainB]
  norm_num

/-- C6 (amended): every value the progress callback receives lies in
`[0, 100]` (for `delay > 0`), over arbitrary interleavings; and within a
single run — a `resume()` followed only by passive events, so that no
second `animate` chain is started — the reported sequence is
non-decreasing, starts at 0, and reaches 100 only once `delay` has
elapsed since the resume.  Across `pause()`/`resume()` interleavings,
however, the dangling earlier chain keeps reporting, so the interleaved
sequence can decrease and can reach 100 before `delay` has elapsed since
the most recent `resume()` (see the counterexample). -/
theorem C6_progress_in_range_and_monotone_per_run (d t0 : Int) (hd : 0 < d)
    (es : List Event) (hp : es.all passiveB = true) :
    (∀ (es2 : List Event) (t : Int) (q : ℚ),
        Obs.progress t q ∈ (run (World.init (Timer.construct d true) t0) es2).2 →
        0 ≤ q ∧ q ≤ 100) ∧
    chainB 0 (progressValues
        (run ((World.init (Timer.construct d true) t0).resume) es).2) = true ∧
    ((progressValues (run ((World.init (Timer.construct d true) t0).resume) es).2).head?
        = none ∨
     (progressValues (run ((World.init (Timer.construct d true) t0).resume) es).2).head?
        = some 0) ∧
    (∀ (t : Int) (q : ℚ),
        Obs.progress t q ∈ (run ((World.init (Timer.construct d true) t0).resume) es).2 →
        q = 100 → t0 + d ≤ t) := by
  have hinv : ProgInv d t0 0 ((World.init (Timer.construct d true) t0).resume) := by
    rw [resume_of_none_tick rfl rfl]
    exact ⟨rfl, rfl, le_refl _, le_refl _, Or.inl ⟨rfl, rfl⟩⟩
  have hanims : ((World.init (Timer.construct d true) t0).resume).anims
      = [Anim.zero, Anim.loop none] := by
    rw [resume_of_none_tick rfl rfl]
    rfl
  have htick : ((World.init (Timer.construct d true) t0).resume).timer.tick = true := by
    rw [resume_of_none_tick rfl rfl]
    rfl
  obtain ⟨hchain, hlate⟩ := prog_passive_run hd es _ 0 hp hinv
  refine ⟨?_, hchain, prog_head_zero es _ hp hanims htick, hlate⟩
  intro es2 t q hq
  refine progress_range_run d hd es2 _ rfl ?_ t q hq
  intro ft hm
  simp [World.init] at hm

theorem C6_witness :
    chainB 0 (progressValues
        (run ((World.init (Timer.construct 1000 true) 1000).resume)
          [Event.frame, Event.advance 250, Event.frame]).2) = true :=
  (C6_progress_in_range_and_monotone_per_run 1000 1000 (by norm_num)
    [Event.frame, Event.advance 250, Event.frame] (by decide)).2.1

/-- C7 counterexample: a `pause()` during an active progress-animation
chain followed by a `resume()` leaves two concurrently ticking chains:
delay 1000, `resume()` at t=1000, frame, `pause()` at t=1300,
`resume()` at t=1400, frame — both `animate` chains are still scheduled
(first ticks 1000 and 1400), and both invoke the progress callback. -/
theorem C7_counterexample :
    ((run (World.init (Timer.construct 1000 true) 1000)
        [Event.resume, Event.frame, Event.advance 300, Event.pause, Event.advance 100,
         Event.resume, Event.frame]).1).anims
      = [Anim.loop (some 1000), Anim.loop (some 1400)] ∧
    ((((run (World.init (Timer.construct 1000 true) 1000)
        [Event.resume, Event.frame, Event.advance 300, Event.pause, Event.advance 100,
         Event.resume, Event.frame]).1).anims.filter isLoopAnim).length = 2) := by
  constructor
  · simp [run, step, World.resume, World.pause, World.frame, World.fire, World.clear,
      World.init, Timer.construct, clearTimeout, stepAnim]
  · simp [run, step, World.resume, World.pause, World.frame, World.fire, World.clear,
      World.init, Timer.construct, clearTimeout, stepAnim, isLoopAnim]

/-- C7 (amended): `pause()` never cancels a pending animation-frame
callback of the timer, so a `pause()` during an active chain followed by
a `resume()` leaves two concurrently ticking chains (see the
counterexample); at most one `animate` chain is active only while no
further `resume()` interrupts a live chain — in particular along a
single `resume()` followed by passive events. -/
theorem C7_pause_keeps_chain_single_run_has_one (d : Int) (tk : Bool) (t0 : Int) :
    (∀ w : World, w.pause.anims = w.anims) ∧
    (∀ es : List Event, es.all passiveB = true →
      ((((run ((World.init (Timer.construct d tk) t0).resume) es).1).anims.filter
          isLoopAnim).length ≤ 1)) := by
  constructor
  · intro w
    by_cases hs : w.timer.start = 0
    · rw [pause_of_eq hs]
    · rw [pause_of_ne hs]
  · intro es hp
    refine le_trans (loopCount_passive es _ hp) ?_
    cases tk with
    | false =>
      rw [resume_of_none_notick rfl rfl]
      simp [World.init]
    | true =>
      rw [resume_of_none_tick rfl rfl]
      simp [World.init, isLoopAnim]

theorem C7_witness :
    ((((run ((World.init (Timer.construct 1000 true) 1000).resume)
        [Event.frame, Event.advance 250, Event.frame]).1).anims.filter
        isLoopAnim).length ≤ 1) :=
  (C7_pause_keeps_chain_single_run_has_one 1000 true 1000).2
    [Event.frame, Event.advance 250, Event.frame] (by decide)

theorem C10_witness :
    (World.pause (run (World.init (Timer.construct 5000 true) 1000)
        [Event.resume, Event.advance 5000, Event.fire]).1).timer.timerId = none ∧
    World.resume (run (World.init (Timer.construct 5000 true) 1000)
        [Event.resume, Event.advance 5000, Event.fire]).1
      = (run (World.init (Timer.construct 5000 true) 1000)
        [Event.resume, Event.advance 5000, Event.fire]).1 :=
  ⟨(C10_stale_timerId_blocks_resume _ (by decide)).2.2.2.2.1 (by decide),
   (C10_stale_timerId_blocks_resume _ (by decide)).2.2.1⟩

end AutoTabs
